import Mathlib

/-
Shallow embedding of the scheduling core of the `flashcard` repository
(spaced-repetition cardbox). Sources embedded below:
  src/flashcards/flashcard.rs  (Flashcard, Flashcard::get_hash)
  src/cardbox.rs               (Envelope, Cardbox and its operations)
  src/db.rs                    (progress store load / save)
  src/constants.rs             (INITIAL_QUEUE_SIZE, stage cooldowns)
Machine integers (u64) are modelled as Nat with explicit reduction mod 2 ^ 64
where wrap-around matters.  Fallible code (Rust panics via unwrap / invalid
match arms) is modelled with Option.  The ambient clock
(time::get_unix_time_millis) is passed as an explicit `now` argument.
-/

/-- 2 ^ 64, the modulus of u64 arithmetic. -/
def M64 : Nat := 2 ^ 64

/- xxHash64 (the `twox_hash::XxHash64` hasher used by `get_hash`), computed on
   the concatenation of all byte slices fed to the streaming hasher.  All
   arithmetic is carried out mod 2 ^ 64 as in the 64-bit original. -/

def PRIME64_1 : Nat := 11400714785074694791
def PRIME64_2 : Nat := 14029467366897019727
def PRIME64_3 : Nat := 1609587929392839161
def PRIME64_4 : Nat := 9650029242287828579
def PRIME64_5 : Nat := 2870177450012600261

/-- Rotate a 64-bit value (x < 2 ^ 64) left by r bits. -/
def rotl64 (x r : Nat) : Nat := (x * 2 ^ r + x / 2 ^ (64 - r)) % M64

/-- One xxHash64 accumulator round. -/
def xxRound (acc lane : Nat) : Nat :=
  rotl64 ((acc + lane * PRIME64_2) % M64) 31 * PRIME64_1 % M64

/-- Merge one accumulator into the converged hash. -/
def xxMerge (acc accN : Nat) : Nat :=
  ((acc ^^^ xxRound 0 accN) * PRIME64_1 + PRIME64_4) % M64

/-- Little-endian word read from a list of bytes. -/
def readLE (bs : List Nat) : Nat := bs.foldr (fun b acc => b + acc * 256) 0

/-- Process the 32-byte stripes of the input. -/
def xxStripes (v1 v2 v3 v4 : Nat) (bs : List Nat) : Nat × Nat × Nat × Nat × List Nat :=
  if 32 ≤ bs.length then
    xxStripes (xxRound v1 (readLE (bs.take 8)))
              (xxRound v2 (readLE ((bs.drop 8).take 8)))
              (xxRound v3 (readLE ((bs.drop 16).take 8)))
              (xxRound v4 (readLE ((bs.drop 24).take 8)))
              (bs.drop 32)
  else (v1, v2, v3, v4, bs)
termination_by bs.length
decreasing_by
  simp only [List.length_drop]
  omega

/-- Process remaining 8-byte lanes. -/
def xxTail8 (acc : Nat) (bs : List Nat) : Nat × List Nat :=
  if 8 ≤ bs.length then
    xxTail8 ((rotl64 (acc ^^^ xxRound 0 (readLE (bs.take 8))) 27 * PRIME64_1 + PRIME64_4) % M64)
            (bs.drop 8)
  else (acc, bs)
termination_by bs.length
decreasing_by
  simp only [List.length_drop]
  omega

/-- Process the final single bytes. -/
def xxTail1 (acc : Nat) : List Nat → Nat
  | [] => acc
  | b :: bs => xxTail1 (rotl64 (acc ^^^ b * PRIME64_5 % M64) 11 * PRIME64_1 % M64) bs

/-- Final avalanche mixing. -/
def xxAvalanche (acc : Nat) : Nat :=
  let a1 := acc ^^^ (acc >>> 33)
  let a2 := a1 * PRIME64_2 % M64
  let a3 := a2 ^^^ (a2 >>> 29)
  let a4 := a3 * PRIME64_3 % M64
  a4 ^^^ (a4 >>> 32)

/-- xxHash64 of a byte list. -/
def xxh64 (seed : Nat) (input : List Nat) : Nat :=
  let len := input.length
  let p :=
    if 32 ≤ len then
      match xxStripes ((seed + PRIME64_1 + PRIME64_2) % M64) ((seed + PRIME64_2) % M64)
          (seed % M64) ((seed + (M64 - PRIME64_1 % M64)) % M64) input with
      | (v1, v2, v3, v4, rest) =>
        let acc := (rotl64 v1 1 + rotl64 v2 7 + rotl64 v3 12 + rotl64 v4 18) % M64
        (xxMerge (xxMerge (xxMerge (xxMerge acc v1) v2) v3) v4, rest)
    else ((seed + PRIME64_5) % M64, input)
  let acc1 := (p.1 + len) % M64
  let q := xxTail8 acc1 p.2
  let r :=
    if 4 ≤ q.2.length then
      ((rotl64 (q.1 ^^^ readLE (q.2.take 4) * PRIME64_1 % M64) 23 * PRIME64_2 + PRIME64_3) % M64,
       q.2.drop 4)
    else q
  xxAvalanche (xxTail1 r.1 r.2)

/- Flashcard data model (src/flashcards/mod.rs and flashcard.rs).
   `LinePart(pub String, pub bool, pub usize)` is a part of a line together
   with a flag telling whether it is a blank. -/

structure LinePart where
  text : String
  isBlank : Bool
  pos : Nat
  deriving DecidableEq, Repr

/-- The two kinds of flashcard backs. -/
inductive FlashcardBack where
  | FillTheBlank (lines : List (List LinePart))
  | WriteTheLine (lines : List String)
  deriving DecidableEq, Repr

/-- A single flashcard: subject, front (face), back and optional note. -/
structure Flashcard where
  subject : String
  face : String
  back : FlashcardBack
  note : Option String
  deriving DecidableEq, Repr

/-- UTF-8 bytes of a string, as the Rust `str::as_bytes`. -/
def strBytes (s : String) : List Nat := s.toUTF8.toList.map (fun b => b.toNat)

/-- The byte stream that `get_hash` feeds to the hasher for the back of the
card: for FillTheBlank every part text of every line, for WriteTheLine every
line, in order. -/
def backBytes : FlashcardBack → List Nat
  | FlashcardBack.FillTheBlank lines =>
      lines.flatMap (fun line => line.flatMap (fun linePart => strBytes linePart.text))
  | FlashcardBack.WriteTheLine lines => lines.flatMap strBytes

/-- `Flashcard::get_hash`: the sequence of streaming writes
(subject bytes, then the back content bytes) hashed with seed-0 xxHash64.
The face text and the note are never written to the hasher. -/
def Flashcard.get_hash (c : Flashcard) : Nat :=
  xxh64 0 (strBytes c.subject ++ backBytes c.back)

/- Configuration constants from src/constants.rs.  The cooldowns are in
   seconds; the release (not debug_assertions) values are used here, debug
   builds compress them to 120 / 240 / 480 / 960 seconds. -/

/-- Number of flashcards that can be newly added to the 1st queue. -/
def INITIAL_QUEUE_SIZE : Nat := 3

def STAGE1_COOLDOWN : Nat := 0
def STAGE2_COOLDOWN : Nat := 3600
def STAGE3_COOLDOWN : Nat := 21600
def STAGE4_COOLDOWN : Nat := 86400
def STAGE5_COOLDOWN : Nat := 604800

/-- db::Stage — a persisted stage record: stage index and the Unix time in
milliseconds when the flashcard entered that stage. -/
structure Stage where
  index : Nat
  timestamp_ms : Nat
  deriving DecidableEq, Repr

/-- The progress database, a HashMap from flashcard hash to Stage, modelled
as an association list with unique keys maintained by insertion. -/
abbrev ProgressMap := List (Nat × Stage)

/-- Lookup in the progress map (HashMap::get). -/
def pget : ProgressMap → Nat → Option Stage
  | [], _ => none
  | (k, v) :: m, h => if k = h then some v else pget m h

/-- Insertion into the progress map (HashMap::insert): replaces any binding
of the same key. -/
def pinsert (m : ProgressMap) (k : Nat) (v : Stage) : ProgressMap :=
  m.filter (fun p => p.1 ≠ k) ++ [(k, v)]

/-- cardbox::Envelope — a flashcard with its hash and the Unix time in
milliseconds at which it entered its current stage. -/
structure Envelope where
  flashcard : Flashcard
  hash : Nat
  timestamp : Nat
  deriving DecidableEq, Repr

/-- cardbox::Cardbox — five envelope FIFO queues for stages 1 to 5, the
unseen pool stage0 holding bare flashcards, and the loaded progress map.
VecDeque front = list head, push_back = append on the right. -/
structure Cardbox where
  stage0 : List Flashcard
  stage1 : List Envelope
  stage2 : List Envelope
  stage3 : List Envelope
  stage4 : List Envelope
  stage5 : List Envelope
  progress : ProgressMap
  deriving DecidableEq, Repr

/-- Cardbox::new — empty queues; the progress map is the one loaded from the
progress database (db::load), passed here explicitly. -/
def Cardbox.new (progress : ProgressMap) : Cardbox :=
  ⟨[], [], [], [], [], [], progress⟩

/-- Uniform access to the stage queues 1..5 (any other index gives []). -/
def Cardbox.queue (cb : Cardbox) : Nat → List Envelope
  | 1 => cb.stage1
  | 2 => cb.stage2
  | 3 => cb.stage3
  | 4 => cb.stage4
  | 5 => cb.stage5
  | _ => []

/-- The stage0 to stage1 top-up loop shared by Cardbox::init and
Cardbox::increase_stage: while stage0 is non-empty and stage1 holds fewer
than INITIAL_QUEUE_SIZE envelopes, pop the front of stage0 and append it to
stage1 as a fresh envelope stamped with the current time. -/
def refill : List Flashcard → List Envelope → Nat → List Flashcard × List Envelope
  | [], stage1, _ => ([], stage1)
  | flashcard :: rest, stage1, now =>
    if stage1.length < INITIAL_QUEUE_SIZE then
      refill rest (stage1 ++ [⟨flashcard, flashcard.get_hash, now⟩]) now
    else (flashcard :: rest, stage1)

/-- The classification loop of Cardbox::init: each flashcard in input order
goes to the stage queue recorded in the progress map (with the recorded
timestamp), or to stage0 when its hash carries no record.  A recorded stage
index outside 1..5 panics (modelled as none). -/
def classify (cb : Cardbox) : List Flashcard → Option Cardbox
  | [] => some cb
  | flashcard :: rest =>
    let hash := flashcard.get_hash
    match pget cb.progress hash with
    | some stage =>
      let timestamp := stage.timestamp_ms
      match stage.index with
      | 1 => classify {cb with stage1 := cb.stage1 ++ [⟨flashcard, hash, timestamp⟩]} rest
      | 2 => classify {cb with stage2 := cb.stage2 ++ [⟨flashcard, hash, timestamp⟩]} rest
      | 3 => classify {cb with stage3 := cb.stage3 ++ [⟨flashcard, hash, timestamp⟩]} rest
      | 4 => classify {cb with stage4 := cb.stage4 ++ [⟨flashcard, hash, timestamp⟩]} rest
      | 5 => classify {cb with stage5 := cb.stage5 ++ [⟨flashcard, hash, timestamp⟩]} rest
      | _ => none
    | none => classify {cb with stage0 := cb.stage0 ++ [flashcard]} rest

/-- Cardbox::init — classify all parsed flashcards, then top up stage1 from
stage0.  The flashcard list stands for the file parsed by
cardbox_parser::parse_from_file. -/
def Cardbox.init (cb : Cardbox) (flashcards : List Flashcard) (now : Nat) : Option Cardbox :=
  match classify cb flashcards with
  | none => none
  | some cb1 =>
    let p := refill cb1.stage0 cb1.stage1 now
    some {cb1 with stage0 := p.1, stage1 := p.2}

/-- Cardbox::increase_stage — pop the front envelope of the given stage,
refresh its timestamp and push it onto the back of the next stage (stage 5
re-enqueues onto itself); popping out of stage 1 refills stage 1 from
stage0.  unwrap on an empty queue and an invalid stage index panic
(modelled as none). -/
def Cardbox.increase_stage (cb : Cardbox) (current_stage : Nat) (now : Nat) : Option Cardbox :=
  match current_stage with
  | 5 =>
    match cb.stage5 with
    | [] => none
    | envelope :: rest => some {cb with stage5 := rest ++ [{envelope with timestamp := now}]}
  | 4 =>
    match cb.stage4 with
    | [] => none
    | envelope :: rest =>
      some {cb with stage4 := rest, stage5 := cb.stage5 ++ [{envelope with timestamp := now}]}
  | 3 =>
    match cb.stage3 with
    | [] => none
    | envelope :: rest =>
      some {cb with stage3 := rest, stage4 := cb.stage4 ++ [{envelope with timestamp := now}]}
  | 2 =>
    match cb.stage2 with
    | [] => none
    | envelope :: rest =>
      some {cb with stage2 := rest, stage3 := cb.stage3 ++ [{envelope with timestamp := now}]}
  | 1 =>
    match cb.stage1 with
    | [] => none
    | envelope :: rest =>
      let p := refill cb.stage0 rest now
      some {cb with stage0 := p.1, stage1 := p.2,
                    stage2 := cb.stage2 ++ [{envelope with timestamp := now}]}
  | _ => none

/-- Cardbox::reset_stage — pop the front envelope of the given stage,
refresh its timestamp and push it onto the back of stage 1. -/
def Cardbox.reset_stage (cb : Cardbox) (current_stage : Nat) (now : Nat) : Option Cardbox :=
  match
    (match current_stage with
     | 5 =>
       match cb.stage5 with
       | [] => none
       | envelope :: rest => some ({cb with stage5 := rest}, envelope)
     | 4 =>
       match cb.stage4 with
       | [] => none
       | envelope :: rest => some ({cb with stage4 := rest}, envelope)
     | 3 =>
       match cb.stage3 with
       | [] => none
       | envelope :: rest => some ({cb with stage3 := rest}, envelope)
     | 2 =>
       match cb.stage2 with
       | [] => none
       | envelope :: rest => some ({cb with stage2 := rest}, envelope)
     | 1 =>
       match cb.stage1 with
       | [] => none
       | envelope :: rest => some ({cb with stage1 := rest}, envelope)
     | _ => none) with
  | none => none
  | some (cb1, envelope) =>
    some {cb1 with stage1 := cb1.stage1 ++ [{envelope with timestamp := now}]}

/-- Fold of HashMap::insert over one stage queue, as in Cardbox::save. -/
def saveStage (m : ProgressMap) (idx : Nat) (q : List Envelope) : ProgressMap :=
  q.foldl (fun acc envelope => pinsert acc envelope.hash ⟨idx, envelope.timestamp⟩) m

/-- Cardbox::save — inserts a record for every envelope of stages 1 to 5
into the progress map that was loaded at startup, and hands the resulting
map to db::save.  Returns the map that is written. -/
def Cardbox.save (cb : Cardbox) : ProgressMap :=
  saveStage (saveStage (saveStage (saveStage (saveStage cb.progress 1 cb.stage1)
    2 cb.stage2) 3 cb.stage3) 4 cb.stage4) 5 cb.stage5

/-- Cardbox::size — the number of flashcards over all six queues. -/
def Cardbox.size (cb : Cardbox) : Nat :=
  cb.stage0.length + cb.stage1.length + cb.stage2.length + cb.stage3.length
    + cb.stage4.length + cb.stage5.length

/-- Wrapping u64 subtraction (release build semantics; debug builds panic on
the same underflow). -/
def subU64 (a b : Nat) : Nat := (a + (M64 - b % M64)) % M64

/-- One queue check of Cardbox::next: look at the front envelope only and
return it when `timestamp <= current_time - cooldown * 1000`, the
subtraction being computed on u64. -/
def chk (q : List Envelope) (current_time cd k : Nat) : Option (Flashcard × Nat) :=
  match q with
  | [] => none
  | envelope :: _ =>
    if envelope.timestamp ≤ subU64 current_time (cd * 1000) then
      some (envelope.flashcard, k)
    else none

/-- Cardbox::next — examine the queues from stage 5 down to stage 1; the
first front envelope that passes the cooldown test is returned with its
stage index; otherwise none. -/
def Cardbox.next (cb : Cardbox) (current_time : Nat) : Option (Flashcard × Nat) :=
  match chk cb.stage5 current_time STAGE5_COOLDOWN 5 with
  | some r => some r
  | none =>
    match chk cb.stage4 current_time STAGE4_COOLDOWN 4 with
    | some r => some r
    | none =>
      match chk cb.stage3 current_time STAGE3_COOLDOWN 3 with
      | some r => some r
      | none =>
        match chk cb.stage2 current_time STAGE2_COOLDOWN 2 with
        | some r => some r
        | none => chk cb.stage1 current_time STAGE1_COOLDOWN 1

/-- The stage-indexed cooldown table of the spec, in seconds. -/
def cooldown : Nat → Nat
  | 1 => STAGE1_COOLDOWN
  | 2 => STAGE2_COOLDOWN
  | 3 => STAGE3_COOLDOWN
  | 4 => STAGE4_COOLDOWN
  | 5 => STAGE5_COOLDOWN
  | _ => 0

/-- Modelled from the spec: a front envelope is due when
`now - stage_entered_at >= cooldown(stage)` read as exact integer
arithmetic (milliseconds). -/
def dueSpec (now cd : Nat) (envelope : Envelope) : Prop :=
  ((cd * 1000 : Nat) : Int) ≤ (now : Int) - (envelope.timestamp : Int)

instance (now cd : Nat) (envelope : Envelope) : Decidable (dueSpec now cd envelope) :=
  inferInstanceAs (Decidable (_ ≤ _))

/-- Modelled from the spec: one queue check of the selection algorithm,
inspecting only the front element. -/
def chkSpec (q : List Envelope) (now cd k : Nat) : Option (Flashcard × Nat) :=
  match q with
  | [] => none
  | envelope :: _ =>
    if dueSpec now cd envelope then some (envelope.flashcard, k) else none

/-- Modelled from the spec: examine queues from highest stage (5) down to
lowest (1); the first stage whose front element is due wins; none when no
non-empty queue has a due front element. -/
def Cardbox.nextSpec (cb : Cardbox) (now : Nat) : Option (Flashcard × Nat) :=
  match chkSpec cb.stage5 now (cooldown 5) 5 with
  | some r => some r
  | none =>
    match chkSpec cb.stage4 now (cooldown 4) 4 with
    | some r => some r
    | none =>
      match chkSpec cb.stage3 now (cooldown 3) 3 with
      | some r => some r
      | none =>
        match chkSpec cb.stage2 now (cooldown 2) 2 with
        | some r => some r
        | none => chkSpec cb.stage1 now (cooldown 1) 1

/- Progress store serialization (src/db.rs).  A file is modelled as the list
   of its lines, each line a list of characters; BufRead::lines and writeln
   are the line framing.  db::load splits each line on the semicolon and
   parses the first three fields with str::parse::<u64>, panicking (none) on
   a malformed field or a missing one; db::save writes one
   `hash;index;timestamp` line per map entry. -/

/-- The decimal digit characters. -/
def digitChar : Nat → Char
  | 0 => '0'
  | 1 => '1'
  | 2 => '2'
  | 3 => '3'
  | 4 => '4'
  | 5 => '5'
  | 6 => '6'
  | 7 => '7'
  | 8 => '8'
  | _ => '9'

/-- Digit value of a character, none when it is not a decimal digit. -/
def charDigit (c : Char) : Option Nat :=
  if c = '0' then some 0
  else if c = '1' then some 1
  else if c = '2' then some 2
  else if c = '3' then some 3
  else if c = '4' then some 4
  else if c = '5' then some 5
  else if c = '6' then some 6
  else if c = '7' then some 7
  else if c = '8' then some 8
  else if c = '9' then some 9
  else none

/-- Decimal rendering helper; the fuel argument only bounds the recursion
depth and any fuel above n suffices. -/
def natCharsCore (fuel : Nat) (n : Nat) (acc : List Char) : List Char :=
  match fuel with
  | 0 => acc
  | fuel + 1 =>
    if n < 10 then digitChar n :: acc
    else natCharsCore fuel (n / 10) (digitChar (n % 10) :: acc)

/-- Decimal rendering of a natural number, as the Display format used by
writeln. -/
def natChars (n : Nat) : List Char := natCharsCore (n + 1) n []

/-- Parse a digit string left to right accumulating its value. -/
def parseDigits : List Char → Nat → Option Nat
  | [], acc => some acc
  | c :: cs, acc =>
    match charDigit c with
    | some d => parseDigits cs (acc * 10 + d)
    | none => none

/-- str::parse::<u64> on a field: fails on the empty string, on a non-digit
character and on a value not representable in 64 bits. -/
def parseU64 (cs : List Char) : Option Nat :=
  if cs = [] then none
  else
    match parseDigits cs 0 with
    | some n => if n < M64 then some n else none
    | none => none

/-- str::split on the semicolon. -/
def splitSemi : List Char → List (List Char)
  | [] => [[]]
  | c :: cs =>
    if c = ';' then [] :: splitSemi cs
    else
      match splitSemi cs with
      | [] => [[c]]
      | s :: rest => (c :: s) :: rest

/-- The line db::save writes for one map entry. -/
def lineOf (hash : Nat) (stage : Stage) : List Char :=
  natChars hash ++ ';' :: natChars stage.index ++ ';' :: natChars stage.timestamp_ms

/-- db::save — the lines written to the file, one per map entry, in map
iteration order (unspecified for a HashMap). -/
def dbSaveLines (db : ProgressMap) : List (List Char) :=
  db.map (fun p => lineOf p.1 p.2)

/-- db::load on one line: parts[0], parts[1], parts[2] of the semicolon
split parsed as u64; a missing part or a parse failure panics (none). -/
def parseLine (cs : List Char) : Option (Nat × Stage) :=
  match splitSemi cs with
  | p0 :: p1 :: p2 :: _ =>
    match parseU64 p0, parseU64 p1, parseU64 p2 with
    | some hash, some index, some timestamp_ms => some (hash, ⟨index, timestamp_ms⟩)
    | _, _, _ => none
  | _ => none

/-- db::load folding the parsed lines into the result map. -/
def dbLoadAux (m : ProgressMap) : List (List Char) → Option ProgressMap
  | [] => some m
  | l :: ls =>
    match parseLine l with
    | none => none
    | some (hash, stage) => dbLoadAux (pinsert m hash stage) ls

/-- db::load — parse every line of the file into the progress map. -/
def dbLoad (lines : List (List Char)) : Option ProgressMap := dbLoadAux [] lines

/-- Sequential line writing with injected failure: `failAt = some i` makes
the i-th write return an error, after which nothing further is written.
Returns the final status and the file contents produced. -/
def writeLinesFS : List (List Char) → Option Nat → Except Unit Unit × List (List Char)
  | [], _ => (Except.ok (), [])
  | _ :: _, some 0 => (Except.error (), [])
  | l :: ls, some (n + 1) =>
    let r := writeLinesFS ls (some n)
    (r.1, l :: r.2)
  | l :: ls, none =>
    let r := writeLinesFS ls none
    (r.1, l :: r.2)

/-- db::save at the file level: File::create truncates the target (the prior
contents `oldFile` are discarded before any record is written), then the
record lines are written one by one; a failing write aborts the loop with an
error.  Returns the status and the resulting file contents. -/
def dbSaveFS (db : ProgressMap) (_oldFile : List (List Char)) (failAt : Option Nat) :
    Except Unit Unit × List (List Char) :=
  writeLinesFS (dbSaveLines db) failAt

/- Helper lemmas. -/

/-- Closed form of the top-up loop: it moves
`INITIAL_QUEUE_SIZE - stage1.length` flashcards (capped by the stage0
contents) from the front of stage0 to the back of stage1 as fresh
envelopes. -/
theorem refill_eq (s0 : List Flashcard) (s1 : List Envelope) (now : Nat) :
    refill s0 s1 now =
      (s0.drop (INITIAL_QUEUE_SIZE - s1.length),
       s1 ++ (s0.take (INITIAL_QUEUE_SIZE - s1.length)).map
         (fun f => ⟨f, f.get_hash, now⟩)) := by
  induction s0 generalizing s1 with
  | nil => simp [refill]
  | cons f rest ih =>
    by_cases h : s1.length < INITIAL_QUEUE_SIZE
    · simp only [refill, if_pos h]
      rw [ih]
      have hm : INITIAL_QUEUE_SIZE - s1.length = (INITIAL_QUEUE_SIZE - (s1.length + 1)) + 1 := by
        omega
      rw [hm]
      simp [List.append_assoc]
    · simp only [refill, if_neg h]
      have hz : INITIAL_QUEUE_SIZE - s1.length = 0 := by omega
      simp [hz]

/-- The top-up loop moves flashcards without dropping or duplicating. -/
theorem refill_length (s0 : List Flashcard) (s1 : List Envelope) (now : Nat) :
    (refill s0 s1 now).1.length + (refill s0 s1 now).2.length = s0.length + s1.length := by
  rw [refill_eq]
  simp
  omega

/-- Each classified flashcard lands in exactly one queue: classification
grows the total count by the number of flashcards processed. -/
theorem classify_size (fs : List Flashcard) :
    ∀ cb cb', classify cb fs = some cb' → cb'.size = cb.size + fs.length := by
  induction fs with
  | nil =>
    intro cb cb' h
    simp only [classify, Option.some.injEq] at h
    subst h
    simp
  | cons f rest ih =>
    intro cb cb' h
    simp only [classify] at h
    split at h
    · split at h
      all_goals try exact absurd h (by simp)
      all_goals
        have hs := ih _ _ h
      all_goals
        simp [Cardbox.size] at hs ⊢
      all_goals omega
    · have hs := ih _ _ h
      simp [Cardbox.size] at hs ⊢
      omega

/-- With an empty progress map, classification appends every flashcard to
stage0 in input order. -/
theorem classify_empty (fs : List Flashcard) :
    ∀ cb, cb.progress = [] → classify cb fs = some {cb with stage0 := cb.stage0 ++ fs} := by
  induction fs with
  | nil =>
    intro cb hp
    simp [classify]
  | cons f rest ih =>
    intro cb hp
    simp only [classify, hp, pget]
    rw [ih _ (by simp [hp])]
    simp

/-- increase_stage moves one envelope between queues (refilling stage1 from
stage0 when needed) and never changes the total count. -/
theorem increase_stage_size (cb : Cardbox) (k now : Nat) (cb' : Cardbox)
    (h : cb.increase_stage k now = some cb') : cb'.size = cb.size := by
  unfold Cardbox.increase_stage at h
  split at h
  · cases h5 : cb.stage5 with
    | nil => rw [h5] at h; exact absurd h (by simp)
    | cons e rest =>
      rw [h5] at h
      simp only [Option.some.injEq] at h
      subst h
      simp [Cardbox.size, h5]
  · cases h4 : cb.stage4 with
    | nil => rw [h4] at h; exact absurd h (by simp)
    | cons e rest =>
      rw [h4] at h
      simp only [Option.some.injEq] at h
      subst h
      simp [Cardbox.size, h4]
      omega
  · cases h3 : cb.stage3 with
    | nil => rw [h3] at h; exact absurd h (by simp)
    | cons e rest =>
      rw [h3] at h
      simp only [Option.some.injEq] at h
      subst h
      simp [Cardbox.size, h3]
      omega
  · cases h2 : cb.stage2 with
    | nil => rw [h2] at h; exact absurd h (by simp)
    | cons e rest =>
      rw [h2] at h
      simp only [Option.some.injEq] at h
      subst h
      simp [Cardbox.size, h2]
      omega
  · cases h1 : cb.stage1 with
    | nil => rw [h1] at h; exact absurd h (by simp)
    | cons e rest =>
      rw [h1] at h
      simp only [Option.some.injEq] at h
      subst h
      have hr := refill_length cb.stage0 rest now
      simp [Cardbox.size, h1]
      omega
  · exact absurd h (by simp)

/-- reset_stage moves one envelope to stage1 and never changes the total
count. -/
theorem reset_stage_size (cb : Cardbox) (k now : Nat) (cb' : Cardbox)
    (h : cb.reset_stage k now = some cb') : cb'.size = cb.size := by
  unfold Cardbox.reset_stage at h
  split at h
  · exact absurd h (by simp)
  next cb1 envelope heq =>
    simp only [Option.some.injEq] at h
    subst h
    split at heq
    · cases h5 : cb.stage5 with
      | nil => rw [h5] at heq; exact absurd heq (by simp)
      | cons e rest =>
        rw [h5] at heq
        simp only [Option.some.injEq, Prod.mk.injEq] at heq
        obtain ⟨hcb, henv⟩ := heq
        subst hcb
        simp [Cardbox.size, h5]
        omega
    · cases h4 : cb.stage4 with
      | nil => rw [h4] at heq; exact absurd heq (by simp)
      | cons e rest =>
        rw [h4] at heq
        simp only [Option.some.injEq, Prod.mk.injEq] at heq
        obtain ⟨hcb, henv⟩ := heq
        subst hcb
        simp [Cardbox.size, h4]
        omega
    · cases h3 : cb.stage3 with
      | nil => rw [h3] at heq; exact absurd heq (by simp)
      | cons e rest =>
        rw [h3] at heq
        simp only [Option.some.injEq, Prod.mk.injEq] at heq
        obtain ⟨hcb, henv⟩ := heq
        subst hcb
        simp [Cardbox.size, h3]
        omega
    · cases h2 : cb.stage2 with
      | nil => rw [h2] at heq; exact absurd heq (by simp)
      | cons e rest =>
        rw [h2] at heq
        simp only [Option.some.injEq, Prod.mk.injEq] at heq
        obtain ⟨hcb, henv⟩ := heq
        subst hcb
        simp [Cardbox.size, h2]
        omega
    · cases h1 : cb.stage1 with
      | nil => rw [h1] at heq; exact absurd heq (by simp)
      | cons e rest =>
        rw [h1] at heq
        simp only [Option.some.injEq, Prod.mk.injEq] at heq
        obtain ⟨hcb, henv⟩ := heq
        subst hcb
        simp [Cardbox.size, h1]
    · exact absurd heq (by simp)
/-- Lookup ignores a filtered-out key and is otherwise unaffected. -/
theorem pget_filter (m : ProgressMap) (k h : Nat) :
    pget (m.filter (fun p => p.1 ≠ k)) h = if h = k then none else pget m h := by
  induction m with
  | nil => simp [pget]
  | cons p m ih =>
    obtain ⟨a, b⟩ := p
    simp only [decide_not] at ih
    by_cases hak : a = k
    · subst hak
      by_cases hh : h = a
      · subst hh
        simp [List.filter_cons, decide_not, ih]
      · simp [List.filter_cons, decide_not, pget, ih, hh, Ne.symm hh]
    · by_cases hh : a = h
      · subst hh
        simp [List.filter_cons, decide_not, pget, hak]
      · simp [List.filter_cons, decide_not, pget, hak, hh, ih]

/-- Lookup distributes over append when the key misses the first part. -/
theorem pget_append_of_none (a b : ProgressMap) (h : Nat) (ha : pget a h = none) :
    pget (a ++ b) h = pget b h := by
  induction a with
  | nil => simp
  | cons p a ih =>
    obtain ⟨x, y⟩ := p
    by_cases hx : x = h
    · simp [pget, hx] at ha
    · simp only [pget, if_neg hx, List.cons_append] at ha ⊢
      exact ih ha

/-- Lookup hits in the first part of an append stay. -/
theorem pget_append_of_some (a b : ProgressMap) (h : Nat) (v : Stage)
    (ha : pget a h = some v) : pget (a ++ b) h = some v := by
  induction a with
  | nil => simp [pget] at ha
  | cons p a ih =>
    obtain ⟨x, y⟩ := p
    by_cases hx : x = h
    · simp only [pget, if_pos hx, List.cons_append] at ha ⊢
      exact ha
    · simp only [pget, if_neg hx, List.cons_append] at ha ⊢
      exact ih ha

/-- Lookup after insertion: the inserted key maps to the new value, every
other key is unaffected. -/
theorem pget_pinsert (m : ProgressMap) (k : Nat) (v : Stage) (h : Nat) :
    pget (pinsert m k v) h = if h = k then some v else pget m h := by
  unfold pinsert
  by_cases hh : h = k
  · subst hh
    rw [pget_append_of_none _ _ _ (by rw [pget_filter]; simp)]
    simp [pget]
  · rw [if_neg hh]
    cases hm : pget m h with
    | none =>
      rw [pget_append_of_none _ _ _ (by rw [pget_filter, if_neg hh]; exact hm)]
      simp [pget, Ne.symm hh, hm]
    | some w =>
      exact pget_append_of_some _ _ _ _ (by rw [pget_filter, if_neg hh]; exact hm)

/-- Saving one stage leaves every key outside that queue's hashes
untouched. -/
theorem pget_saveStage_not_mem (q : List Envelope) :
    ∀ m i h, h ∉ q.map (fun e => e.hash) → pget (saveStage m i q) h = pget m h := by
  induction q with
  | nil => intro m i h _; rfl
  | cons f q ih =>
    intro m i h hn
    simp only [List.map_cons, List.mem_cons, not_or] at hn
    have step : saveStage m i (f :: q) = saveStage (pinsert m f.hash ⟨i, f.timestamp⟩) i q := rfl
    rw [step, ih _ i h hn.2, pget_pinsert, if_neg hn.1]

/-- Saving one stage maps every envelope hash of the queue to that stage and
its timestamp, when queue hashes are unique. -/
theorem pget_saveStage_mem (q : List Envelope) :
    ∀ m i e, (q.map (fun e => e.hash)).Nodup → e ∈ q →
      pget (saveStage m i q) e.hash = some ⟨i, e.timestamp⟩ := by
  induction q with
  | nil =>
    intro m i e _ he
    exact absurd he (by simp)
  | cons f q ih =>
    intro m i e hnd he
    simp only [List.map_cons, List.nodup_cons] at hnd
    have step : saveStage m i (f :: q) = saveStage (pinsert m f.hash ⟨i, f.timestamp⟩) i q := rfl
    rw [step]
    rcases List.mem_cons.mp he with rfl | hmem
    · rw [pget_saveStage_not_mem q _ i e.hash hnd.1, pget_pinsert, if_pos rfl]
    · exact ih _ i e hnd.2 hmem

/-- The hashes of all envelopes in stages 1 to 5, in stage order. -/
def allStageHashes (cb : Cardbox) : List Nat :=
  cb.stage1.map (fun e => e.hash) ++ cb.stage2.map (fun e => e.hash)
    ++ cb.stage3.map (fun e => e.hash) ++ cb.stage4.map (fun e => e.hash)
    ++ cb.stage5.map (fun e => e.hash)

/-- Rendering a number always produces at least one character. -/
theorem natCharsCore_length (fuel : Nat) :
    ∀ n acc, n < fuel → acc.length < (natCharsCore fuel n acc).length := by
  induction fuel with
  | zero => intro n acc h; omega
  | succ fuel ih =>
    intro n acc h
    simp only [natCharsCore]
    by_cases h10 : n < 10
    · simp [h10]
    · rw [if_neg h10]
      have hrec := ih (n / 10) (digitChar (n % 10) :: acc) (by omega)
      simp only [List.length_cons] at hrec
      omega

/-- Parsing a rendered digit recovers its value. -/
theorem charDigit_digitChar (d : Nat) (h : d < 10) : charDigit (digitChar d) = some d := by
  interval_cases d <;> decide

/-- Every character produced by the renderer is a digit or comes from the
accumulator. -/
theorem mem_natCharsCore (fuel : Nat) :
    ∀ n acc c, n < fuel → c ∈ natCharsCore fuel n acc →
      (charDigit c).isSome ∨ c ∈ acc := by
  induction fuel with
  | zero => intro n acc c h; omega
  | succ fuel ih =>
    intro n acc c h hc
    simp only [natCharsCore] at hc
    by_cases h10 : n < 10
    · rw [if_pos h10] at hc
      rcases List.mem_cons.mp hc with rfl | hmem
      · exact Or.inl (by rw [charDigit_digitChar _ h10]; rfl)
      · exact Or.inr hmem
    · rw [if_neg h10] at hc
      rcases ih (n / 10) (digitChar (n % 10) :: acc) c (by omega) hc with hd | hmem
      · exact Or.inl hd
      · rcases List.mem_cons.mp hmem with rfl | hmem2
        · exact Or.inl (by rw [charDigit_digitChar _ (by omega)]; rfl)
        · exact Or.inr hmem2

/-- Reading the rendered digits continues the parse with the rendered
value. -/
theorem parseDigits_natCharsCore (fuel : Nat) :
    ∀ n cs, n < fuel → parseDigits (natCharsCore fuel n cs) 0 = parseDigits cs n := by
  induction fuel with
  | zero => intro n cs h; omega
  | succ fuel ih =>
    intro n cs h
    simp only [natCharsCore]
    by_cases h10 : n < 10
    · rw [if_pos h10]
      simp [parseDigits, charDigit_digitChar _ h10]
    · rw [if_neg h10]
      rw [ih (n / 10) (digitChar (n % 10) :: cs) (by omega)]
      simp only [parseDigits, charDigit_digitChar _ (Nat.mod_lt n (by omega))]
      congr 1
      omega

/-- Decimal round trip for any value a u64 can hold. -/
theorem parseU64_natChars (n : Nat) (h : n < M64) : parseU64 (natChars n) = some n := by
  have hne : natChars n ≠ [] := by
    have hl := natCharsCore_length (n + 1) n [] (by omega)
    intro hc
    rw [natChars] at hc
    rw [hc] at hl
    simp at hl
  unfold parseU64
  rw [if_neg hne, natChars, parseDigits_natCharsCore (n + 1) n [] (by omega)]
  simp [parseDigits, h]

/-- The rendered digits never contain the field separator. -/
theorem natChars_no_semi (n : Nat) : ∀ c ∈ natChars n, c ≠ ';' := by
  intro c hc
  rcases mem_natCharsCore (n + 1) n [] c (by omega) hc with hd | hmem
  · intro hcc
    rw [hcc] at hd
    simp [charDigit] at hd
  · simp at hmem

/-- The semicolon split never yields an empty part list. -/
theorem splitSemi_ne_nil (cs : List Char) : splitSemi cs ≠ [] := by
  induction cs with
  | nil => simp [splitSemi]
  | cons c cs ih =>
    simp only [splitSemi]
    by_cases hc : c = ';'
    · simp [hc]
    · rw [if_neg hc]
      cases hs : splitSemi cs with
      | nil => simp
      | cons s rest => simp

/-- Splitting a semicolon-free string gives the string itself. -/
theorem splitSemi_no_semi (a : List Char) (h : ∀ c ∈ a, c ≠ ';') : splitSemi a = [a] := by
  induction a with
  | nil => rfl
  | cons c a ih =>
    simp only [splitSemi]
    rw [if_neg (h c (by simp))]
    rw [ih (fun c hc => h c (by simp [hc]))]

/-- Splitting after a semicolon-free prefix peels off that prefix. -/
theorem splitSemi_append (a rest : List Char) (h : ∀ c ∈ a, c ≠ ';') :
    splitSemi (a ++ ';' :: rest) = a :: splitSemi rest := by
  induction a with
  | nil => simp [splitSemi]
  | cons c a ih =>
    simp only [List.cons_append, splitSemi, List.append_eq]
    rw [if_neg (h c (by simp))]
    rw [ih (fun c hc => h c (by simp [hc]))]

/-- Parsing the line written for a record recovers the record. -/
theorem parseLine_lineOf (hash : Nat) (stage : Stage) (hb : hash < M64)
    (ib : stage.index < M64) (tb : stage.timestamp_ms < M64) :
    parseLine (lineOf hash stage) = some (hash, stage) := by
  unfold parseLine lineOf
  rw [List.append_assoc, List.cons_append]
  rw [splitSemi_append _ _ (natChars_no_semi hash)]
  rw [splitSemi_append _ _ (natChars_no_semi stage.index)]
  rw [splitSemi_no_semi _ (natChars_no_semi stage.timestamp_ms)]
  simp [parseU64_natChars _ hb, parseU64_natChars _ ib, parseU64_natChars _ tb]

/-- A missing key means no entry carries it. -/
theorem pget_eq_none (m : ProgressMap) (h : Nat) (hm : pget m h = none) :
    ∀ p ∈ m, p.1 ≠ h := by
  induction m with
  | nil => simp
  | cons q m ih =>
    obtain ⟨a, b⟩ := q
    intro p hp
    by_cases hah : a = h
    · simp [pget, hah] at hm
    · simp only [pget, if_neg hah] at hm
      rcases List.mem_cons.mp hp with rfl | hmem
      · exact hah
      · exact ih hm p hmem

/-- Inserting a fresh key is an append. -/
theorem pinsert_fresh (m : ProgressMap) (k : Nat) (v : Stage) (hm : pget m k = none) :
    pinsert m k v = m ++ [(k, v)] := by
  unfold pinsert
  congr 1
  rw [List.filter_eq_self]
  intro p hp
  simpa using pget_eq_none m k hm p hp

/-- Loading the saved lines of a map with unique u64 keys and u64 fields
appends its entries to the accumulator unchanged. -/
theorem dbLoadAux_saveLines (db : ProgressMap) :
    ∀ m, (db.map Prod.fst).Nodup →
      (∀ p ∈ db, p.1 < M64 ∧ p.2.index < M64 ∧ p.2.timestamp_ms < M64) →
      (∀ p ∈ db, pget m p.1 = none) →
      dbLoadAux m (dbSaveLines db) = some (m ++ db) := by
  induction db with
  | nil =>
    intro m _ _ _
    simp [dbSaveLines, dbLoadAux]
  | cons p db ih =>
    obtain ⟨hash, st⟩ := p
    intro m hnd hb hm
    simp only [List.map_cons, List.nodup_cons] at hnd
    have hbs := hb _ (List.mem_cons_self _ _)
    simp only [dbSaveLines, List.map_cons, dbLoadAux]
    rw [parseLine_lineOf hash st hbs.1 hbs.2.1 hbs.2.2]
    have hfresh : pget m hash = none := hm _ (List.mem_cons_self _ _)
    show dbLoadAux (pinsert m hash st) (db.map (fun p => lineOf p.1 p.2))
      = some (m ++ (hash, st) :: db)
    rw [pinsert_fresh m hash st hfresh]
    have hstep := ih (m ++ [(hash, st)]) hnd.2
      (fun p hp => hb p (List.mem_cons_of_mem _ hp))
      (fun p hp => by
        rw [pget_append_of_none _ _ _ (hm p (List.mem_cons_of_mem _ hp))]
        have hne : p.1 ≠ hash := by
          intro hc
          exact hnd.1 (hc ▸ List.mem_map_of_mem Prod.fst hp)
        simp [pget, Ne.symm hne])
    rw [show dbSaveLines db = db.map (fun p => lineOf p.1 p.2) from rfl] at hstep
    rw [hstep]
    simp

/-- Value of 2 ^ 64 as a literal, for linear arithmetic. -/
theorem M64_lit : M64 = 18446744073709551616 := by norm_num [M64]

/-- Under a clock no smaller than the cooldown in milliseconds, the u64
cooldown test of the code coincides with the exact integer test of the
spec, queue by queue. -/
theorem chk_eq_chkSpec (q : List Envelope) (t cd k : Nat) (ht : t < M64)
    (hcd : q ≠ [] → cd * 1000 ≤ t) : chk q t cd k = chkSpec q t cd k := by
  cases q with
  | nil => rfl
  | cons e rest =>
    have hc : cd * 1000 ≤ t := hcd (by simp)
    rw [M64_lit] at ht
    have hsub : subU64 t (cd * 1000) = t - cd * 1000 := by
      simp only [subU64, M64_lit]
      omega
    simp only [chk, chkSpec]
    have hiff : (e.timestamp ≤ subU64 t (cd * 1000)) ↔ dueSpec t cd e := by
      rw [hsub]
      unfold dueSpec
      omega
    rw [if_congr hiff rfl rfl]

/-- Under the clock precondition for every non-empty stage, the selection of
the code equals the selection algorithm of the spec. -/
theorem next_eq_nextSpec (cb : Cardbox) (now : Nat) (h64 : now < M64)
    (hcd : ∀ k ∈ ([1, 2, 3, 4, 5] : List Nat), cb.queue k ≠ [] → cooldown k * 1000 ≤ now) :
    cb.next now = cb.nextSpec now := by
  unfold Cardbox.next Cardbox.nextSpec
  rw [chk_eq_chkSpec cb.stage5 now STAGE5_COOLDOWN 5 h64 (hcd 5 (by simp)),
      chk_eq_chkSpec cb.stage4 now STAGE4_COOLDOWN 4 h64 (hcd 4 (by simp)),
      chk_eq_chkSpec cb.stage3 now STAGE3_COOLDOWN 3 h64 (hcd 3 (by simp)),
      chk_eq_chkSpec cb.stage2 now STAGE2_COOLDOWN 2 h64 (hcd 2 (by simp)),
      chk_eq_chkSpec cb.stage1 now STAGE1_COOLDOWN 1 h64 (hcd 1 (by simp))]
  rfl

/-- A write failure at position i of the line sequence leaves exactly the
first i lines in the file and reports the error. -/
theorem writeLinesFS_fail (ls : List (List Char)) :
    ∀ i, i < ls.length →
      writeLinesFS ls (some i) = (Except.error (), ls.take i) := by
  induction ls with
  | nil => intro i h; simp at h
  | cons l ls ih =>
    intro i h
    cases i with
    | zero => rfl
    | succ i =>
      simp only [writeLinesFS]
      rw [ih i (by simpa using h)]
      simp

/- Concrete fixtures used by counterexamples and witnesses. -/

/-- A sample flashcard. -/
def fcU : Flashcard := ⟨"math", "front text", FlashcardBack.WriteTheLine ["back line"], none⟩

/-- The same subject and back as fcU, but a different face and a note. -/
def fcV : Flashcard :=
  ⟨"math", "front text, reworded", FlashcardBack.WriteTheLine ["back line"], some "hint"⟩

/-- An envelope for fcU sitting in a stage since the epoch. -/
def envU : Envelope := ⟨fcU, 0, 0⟩

/-- A cardbox whose stage5 holds envU and whose other queues are empty. -/
def cbU : Cardbox := ⟨[], [], [], [], [], [envU], []⟩

/-- A cardbox freshly loaded from a store holding one record whose
fingerprint matches no flashcard (a stale record). -/
def cbStale : Cardbox := Cardbox.new [(42, ⟨3, 7⟩)]

/-- A progress map with two records. -/
def dbW : ProgressMap := [(42, ⟨3, 7⟩), (9000, ⟨1, 123⟩)]

/-- A progress map with one record. -/
def db9 : ProgressMap := [(1, ⟨1, 5⟩)]

/- Claims. -/

/-- Claim C8: the fingerprint is deterministic and depends only on the
subject and the back content; two flashcards with identical subject and back
have identical hashes whatever their face text and note. -/
theorem hash_ignores_face_and_note (c1 c2 : Flashcard)
    (hs : c1.subject = c2.subject) (hb : c1.back = c2.back) :
    c1.get_hash = c2.get_hash := by
  unfold Flashcard.get_hash
  rw [hs, hb]

/-- Witness for C8 at two concrete flashcards differing in face and note. -/
theorem hash_ignores_face_and_note_witness : fcU.get_hash = fcV.get_hash :=
  hash_ignores_face_and_note fcU fcV rfl rfl

/-- Claim C5: the six queues together always hold as many flashcards as were
loaded at init, and both increase_stage and reset_stage preserve the
total. -/
theorem card_count_invariant :
    (∀ (progress : ProgressMap) (cards : List Flashcard) (now : Nat) (cb' : Cardbox),
        (Cardbox.new progress).init cards now = some cb' → cb'.size = cards.length)
    ∧ (∀ (cb : Cardbox) (k now : Nat) (cb' : Cardbox),
        cb.increase_stage k now = some cb' → cb'.size = cb.size)
    ∧ (∀ (cb : Cardbox) (k now : Nat) (cb' : Cardbox),
        cb.reset_stage k now = some cb' → cb'.size = cb.size) := by
  refine ⟨?_, increase_stage_size, reset_stage_size⟩
  intro progress cards now cb' h
  unfold Cardbox.init at h
  cases hc : classify (Cardbox.new progress) cards with
  | none => rw [hc] at h; simp at h
  | some cb1 =>
    rw [hc] at h
    simp only [Option.some.injEq] at h
    subst h
    have hs := classify_size cards _ _ hc
    have hr := refill_length cb1.stage0 cb1.stage1 now
    simp [Cardbox.size, Cardbox.new] at hs ⊢
    omega

/-- Witness for C5: a concrete promotion out of stage 5 keeps the count. -/
theorem card_count_invariant_witness :
    (⟨[], [], [], [], [], [⟨fcU, 0, 7⟩], []⟩ : Cardbox).size = cbU.size :=
  card_count_invariant.2.1 cbU 5 7 ⟨[], [], [], [], [], [⟨fcU, 0, 7⟩], []⟩ rfl

/-- Claim C6: init with N flashcards and an empty store puts
min(N, INITIAL_QUEUE_SIZE) fresh envelopes from the front of the list into
stage1, the rest into stage0 in source order, leaves stages 2 to 5 empty
and holds N flashcards in total. -/
theorem init_empty_store_spec (cards : List Flashcard) (now : Nat) :
    ∃ cb', (Cardbox.new []).init cards now = some cb'
      ∧ cb'.stage1 = (cards.take INITIAL_QUEUE_SIZE).map (fun f => ⟨f, f.get_hash, now⟩)
      ∧ cb'.stage0 = cards.drop INITIAL_QUEUE_SIZE
      ∧ cb'.stage2 = [] ∧ cb'.stage3 = [] ∧ cb'.stage4 = [] ∧ cb'.stage5 = []
      ∧ cb'.size = cards.length
      ∧ cb'.stage1.length = min cards.length INITIAL_QUEUE_SIZE := by
  have hcl := classify_empty cards (Cardbox.new []) rfl
  unfold Cardbox.init
  rw [hcl]
  refine ⟨_, rfl, ?_, ?_, ?_, ?_, ?_, ?_, ?_⟩ <;>
    simp [Cardbox.new, Cardbox.size, refill_eq] <;> omega

/-- Claim C3: increase_stage pops the front envelope of the given non-empty
stage, stamps it with now and appends it to the next stage (stage 5 to
itself); popping out of stage 1 then tops stage1 up from the front of stage0
until it holds INITIAL_QUEUE_SIZE envelopes or stage0 is empty. -/
theorem increase_stage_spec (cb : Cardbox) (now : Nat) (e : Envelope) (rest : List Envelope) :
    (cb.stage5 = e :: rest →
      cb.increase_stage 5 now = some {cb with stage5 := rest ++ [{e with timestamp := now}]})
    ∧ (cb.stage4 = e :: rest →
      cb.increase_stage 4 now
        = some {cb with stage4 := rest, stage5 := cb.stage5 ++ [{e with timestamp := now}]})
    ∧ (cb.stage3 = e :: rest →
      cb.increase_stage 3 now
        = some {cb with stage3 := rest, stage4 := cb.stage4 ++ [{e with timestamp := now}]})
    ∧ (cb.stage2 = e :: rest →
      cb.increase_stage 2 now
        = some {cb with stage2 := rest, stage3 := cb.stage3 ++ [{e with timestamp := now}]})
    ∧ (cb.stage1 = e :: rest →
      cb.increase_stage 1 now
        = some {cb with
            stage0 := cb.stage0.drop (INITIAL_QUEUE_SIZE - rest.length),
            stage1 := rest ++ (cb.stage0.take (INITIAL_QUEUE_SIZE - rest.length)).map
              (fun f => ⟨f, f.get_hash, now⟩),
            stage2 := cb.stage2 ++ [{e with timestamp := now}]}) := by
  refine ⟨?_, ?_, ?_, ?_, ?_⟩ <;> intro h <;>
    simp only [Cardbox.increase_stage, h, refill_eq]

/-- Witness for C3: a concrete promotion at stage 5 (terminal-absorbing). -/
theorem increase_stage_spec_witness :
    cbU.increase_stage 5 7 = some {cbU with stage5 := [] ++ [{envU with timestamp := 7}]} :=
  (increase_stage_spec cbU 7 envU []).1 rfl

/-- Claim C4: reset_stage pops the front envelope of the given non-empty
stage, stamps it with now and appends it to the back of stage1, never to any
other queue. -/
theorem reset_stage_spec (cb : Cardbox) (now : Nat) (e : Envelope) (rest : List Envelope) :
    (cb.stage5 = e :: rest →
      cb.reset_stage 5 now
        = some {cb with stage5 := rest, stage1 := cb.stage1 ++ [{e with timestamp := now}]})
    ∧ (cb.stage4 = e :: rest →
      cb.reset_stage 4 now
        = some {cb with stage4 := rest, stage1 := cb.stage1 ++ [{e with timestamp := now}]})
    ∧ (cb.stage3 = e :: rest →
      cb.reset_stage 3 now
        = some {cb with stage3 := rest, stage1 := cb.stage1 ++ [{e with timestamp := now}]})
    ∧ (cb.stage2 = e :: rest →
      cb.reset_stage 2 now
        = some {cb with stage2 := rest, stage1 := cb.stage1 ++ [{e with timestamp := now}]})
    ∧ (cb.stage1 = e :: rest →
      cb.reset_stage 1 now = some {cb with stage1 := rest ++ [{e with timestamp := now}]}) := by
  refine ⟨?_, ?_, ?_, ?_, ?_⟩ <;> intro h <;>
    simp only [Cardbox.reset_stage, h]

/-- Witness for C4: a concrete failure at stage 5 lands the card in
stage1. -/
theorem reset_stage_spec_witness :
    cbU.reset_stage 5 9
      = some {cbU with stage5 := [], stage1 := cbU.stage1 ++ [{envU with timestamp := 9}]} :=
  (reset_stage_spec cbU 9 envU []).1 rfl

/-- Counterexample for C2: at current time 0 (smaller than the stage-5
cooldown in milliseconds) the u64 subtraction in next wraps around, and the
code returns the stage-5 card although the selection algorithm of the
claim, read over exact integers, returns none. -/
theorem next_underflow_counterexample :
    cbU.next 0 = some (fcU, 5) ∧ cbU.nextSpec 0 = none := by
  constructor <;> decide

/-- Claim C2 (amended): whenever the u64 current time is at least each
non-empty stage's cooldown in milliseconds, next examines stages 5 down
to 1, inspects only the front of each non-empty queue and returns the first
due front (the due test being now - stage_entered_at >= cooldown * 1000),
none otherwise — that is, it equals the selection algorithm of the spec. -/
theorem next_eq_spec_under_clock (cb : Cardbox) (now : Nat) (h64 : now < M64)
    (hcd : ∀ k ∈ ([1, 2, 3, 4, 5] : List Nat), cb.queue k ≠ [] → cooldown k * 1000 ≤ now) :
    cb.next now = cb.nextSpec now :=
  next_eq_nextSpec cb now h64 hcd

/-- Witness for C2 at a realistic clock value. -/
theorem next_eq_spec_under_clock_witness :
    cbU.next 1700000000000 = cbU.nextSpec 1700000000000 :=
  next_eq_spec_under_clock cbU 1700000000000 (by decide) (by decide)

/-- Claim C10: the due test of next computes current_time - cooldown * 1000
as a u64 subtraction, so next agrees with the exact integer comparison of
the spec under the precondition that the current time is at least each
non-empty stage's cooldown in milliseconds; at time 0 the stage-5
subtraction underflows and the code hands out a card the exact comparison
rejects. -/
theorem next_clock_precondition :
    (∀ (cb : Cardbox) (now : Nat), now < M64 →
        (∀ k ∈ ([1, 2, 3, 4, 5] : List Nat), cb.queue k ≠ [] → cooldown k * 1000 ≤ now) →
        cb.next now = cb.nextSpec now)
    ∧ cbU.next 0 = some (fcU, 5) ∧ cbU.nextSpec 0 = none :=
  ⟨next_eq_nextSpec, by decide, by decide⟩

/-- Witness for C10 at a realistic clock value. -/
theorem next_clock_precondition_witness :
    cbU.next 1800000000000 = cbU.nextSpec 1800000000000 :=
  next_clock_precondition.1 cbU 1800000000000 (by decide) (by decide)

/-- Counterexample for C1: a cardbox loaded from a store holding the record
42 -> (3, 7), with no flashcard in any stage, still writes that record on
save, although 42 is represented in no stage queue — the persisted mapping
is not a full replace. -/
theorem save_keeps_stale_record :
    pget cbStale.save 42 = some ⟨3, 7⟩ ∧ allStageHashes cbStale = [] := by
  constructor <;> decide

/-- Claim C1 (amended): save merges into the loaded map rather than
replacing it: when the stage hashes are pairwise distinct, every envelope of
stages 1 to 5 is written with its current stage index and timestamp, and
every fingerprint not represented in stages 1 to 5 keeps exactly the record
it had in the map loaded at startup (stale records are preserved, their
removal being the job of db::clean). -/
theorem save_merge_characterization (cb : Cardbox)
    (hnd : (allStageHashes cb).Nodup) :
    (∀ k, 1 ≤ k → k ≤ 5 → ∀ e ∈ cb.queue k,
        pget cb.save e.hash = some ⟨k, e.timestamp⟩)
    ∧ ∀ h, h ∉ allStageHashes cb → pget cb.save h = pget cb.progress h := by
  simp only [allStageHashes, List.nodup_append, List.disjoint_append_left] at hnd
  obtain ⟨⟨⟨⟨h1, h2, d12⟩, h3, d13, d23⟩, h4, ⟨d14, d24⟩, d34⟩, h5, ⟨⟨d15, d25⟩, d35⟩, d45⟩ := hnd
  constructor
  · intro k hk1 hk5 e he
    interval_cases k
    · simp only [Cardbox.queue] at he
      have hm : e.hash ∈ cb.stage1.map (fun e => e.hash) := List.mem_map_of_mem _ he
      unfold Cardbox.save
      rw [pget_saveStage_not_mem _ _ _ _ (fun hc => d15 hm hc),
          pget_saveStage_not_mem _ _ _ _ (fun hc => d14 hm hc),
          pget_saveStage_not_mem _ _ _ _ (fun hc => d13 hm hc),
          pget_saveStage_not_mem _ _ _ _ (fun hc => d12 hm hc)]
      exact pget_saveStage_mem _ _ _ _ h1 he
    · simp only [Cardbox.queue] at he
      have hm : e.hash ∈ cb.stage2.map (fun e => e.hash) := List.mem_map_of_mem _ he
      unfold Cardbox.save
      rw [pget_saveStage_not_mem _ _ _ _ (fun hc => d25 hm hc),
          pget_saveStage_not_mem _ _ _ _ (fun hc => d24 hm hc),
          pget_saveStage_not_mem _ _ _ _ (fun hc => d23 hm hc)]
      exact pget_saveStage_mem _ _ _ _ h2 he
    · simp only [Cardbox.queue] at he
      have hm : e.hash ∈ cb.stage3.map (fun e => e.hash) := List.mem_map_of_mem _ he
      unfold Cardbox.save
      rw [pget_saveStage_not_mem _ _ _ _ (fun hc => d35 hm hc),
          pget_saveStage_not_mem _ _ _ _ (fun hc => d34 hm hc)]
      exact pget_saveStage_mem _ _ _ _ h3 he
    · simp only [Cardbox.queue] at he
      have hm : e.hash ∈ cb.stage4.map (fun e => e.hash) := List.mem_map_of_mem _ he
      unfold Cardbox.save
      rw [pget_saveStage_not_mem _ _ _ _ (fun hc => d45 hm hc)]
      exact pget_saveStage_mem _ _ _ _ h4 he
    · simp only [Cardbox.queue] at he
      unfold Cardbox.save
      exact pget_saveStage_mem _ _ _ _ h5 he
  · intro h hmem
    simp only [allStageHashes, List.mem_append, not_or] at hmem
    obtain ⟨⟨⟨⟨n1, n2⟩, n3⟩, n4⟩, n5⟩ := hmem
    unfold Cardbox.save
    rw [pget_saveStage_not_mem _ _ _ _ n5, pget_saveStage_not_mem _ _ _ _ n4,
        pget_saveStage_not_mem _ _ _ _ n3, pget_saveStage_not_mem _ _ _ _ n2,
        pget_saveStage_not_mem _ _ _ _ n1]

/-- Witness for C1 (amended) on a concrete cardbox. -/
theorem save_merge_characterization_witness :
    pget cbU.save envU.hash = some ⟨5, envU.timestamp⟩ :=
  (save_merge_characterization cbU (by decide)).1 5 (by decide) (by decide) envU (by decide)

/-- Claim C7: saving a progress map (unique u64 keys, u64 fields) and
loading the written lines back reproduces an equivalent mapping — every
fingerprint looks up to the same stage index and timestamp. -/
theorem db_save_load_roundtrip (db : ProgressMap)
    (hnd : (db.map Prod.fst).Nodup)
    (hb : ∀ p ∈ db, p.1 < M64 ∧ p.2.index < M64 ∧ p.2.timestamp_ms < M64) :
    ∃ m, dbLoad (dbSaveLines db) = some m ∧ ∀ h, pget m h = pget db h := by
  refine ⟨db, ?_, fun h => rfl⟩
  unfold dbLoad
  rw [dbLoadAux_saveLines db [] hnd hb (fun p _ => rfl)]
  simp

/-- Witness for C7 on a concrete two-record map. -/
theorem db_save_load_roundtrip_witness :
    ∃ m, dbLoad (dbSaveLines dbW) = some m ∧ ∀ h, pget m h = pget dbW h :=
  db_save_load_roundtrip dbW (by decide) (by decide)

/-- Counterexample for C9: db::save truncates via File::create before
writing, so a failure of the very first write leaves an empty file and the
prior contents are lost, not preserved. -/
theorem db_save_truncates_on_failure :
    (dbSaveFS db9 [['x']] (some 0)).1 = Except.error ()
    ∧ (dbSaveFS db9 [['x']] (some 0)).2 ≠ [['x']] := by
  constructor
  · rfl
  · decide

/-- Claim C9 (amended): on a write failure at position i, db::save leaves
the file holding exactly the first i record lines — the prior file contents
are discarded by the truncating open, whatever they were. -/
theorem db_save_failure_leaves_prefix (db : ProgressMap) (oldFile : List (List Char))
    (i : Nat) (h : i < (dbSaveLines db).length) :
    dbSaveFS db oldFile (some i) = (Except.error (), (dbSaveLines db).take i) :=
  writeLinesFS_fail (dbSaveLines db) i h

/-- Witness for C9 (amended) at a concrete store and failure position. -/
theorem db_save_failure_leaves_prefix_witness :
    dbSaveFS db9 [['x']] (some 0) = (Except.error (), []) :=
  db_save_failure_leaves_prefix db9 [['x']] 0 (by decide)
